import Mathlib

set_option maxHeartbeats 1000000

/-!
Shallow embedding of the `mir-dump` analysis core.

Definitions are translated from `src/polonius_info.rs` and
`src/mir_dumper.rs`.  The fact-store record (`facts::AllInputFacts`,
defined in the repository's `borrowck` module, which is not part of the
sources here) is modelled from the spec's list of input relations.
Rust `HashMap` iteration order is made explicit: `add_fake_facts`
receives the sequence of program points it iterates over as a `order`
parameter, constrained by `ValidOrder` to enumerate exactly the keys of
the points-to-outlives-pairs map, each once.  A `panic!`/`unimplemented!`
/`assert!` abort is modelled by an `Option`-valued result (`none` =
abort).
-/

/-- Region identifier (`facts::Region`): an abstract lifetime id. -/
abbrev Region := Nat

/-- Loan identifier (`facts::Loan`): an abstract borrow-event id;
`Loan::from(n)` and `loan.index()` are both the identity here. -/
abbrev Loan := Nat

/-- Interned program point (`facts::PointIndex`). -/
abbrev PointIndex := Nat

/-- Local variable identifier (`mir::Local`). -/
abbrev Local := Nat

/-- MIR location: a basic block together with a statement index
(`mir::Location`); index `statements.len()` denotes the terminator. -/
structure Location where
  block : Nat
  statement_index : Nat
  deriving DecidableEq

/-- Statement kind: the embedding only distinguishes `Assign` from the
rest, which is all `is_assignment` inspects. -/
inductive StatementKind where
  | assign
  | other
  deriving DecidableEq

/-- MIR place: either a plain local variable or any other place
(projection, static, promoted); `add_fake_facts` treats every non-local
place with `unimplemented!`, so one representative constructor
suffices. -/
inductive Place where
  | local (l : Local)
  | projection
  deriving DecidableEq

/-- Terminator kinds of `mir::TerminatorKind` that `mir_dumper.rs` and
`polonius_info.rs` inspect.  Successor blocks are block ids; `call`
carries the optional `destination` (place, return block) and the
optional `cleanup` block. -/
inductive TerminatorKind where
  | goto (target : Nat)
  | switchInt (targets : List Nat)
  | resume
  | abort
  | «return»
  | unreachable
  | dropAndReplace (target : Nat) (unwind : Option Nat)
  | drop (target : Nat) (unwind : Option Nat)
  | call (destination : Option (Place × Nat)) (cleanup : Option Nat)
  | assert (target : Nat) (cleanup : Option Nat)
  | yield
  | generatorDrop
  | falseEdges (real_target : Nat) (imaginary_targets : List Nat)
  | falseUnwind (real_target : Nat) (unwind : Option Nat)
  deriving DecidableEq

/-- Basic block data (`mir::BasicBlockData`): statements plus the
terminator.  Fully built MIR always has a terminator (the source
unwraps `Option<Terminator>`), so the field is not optional here. -/
structure BasicBlockData where
  statements : List StatementKind
  terminator : TerminatorKind
  deriving DecidableEq

/-- A function body (`mir::Mir`): its basic blocks in declaration
order. -/
structure Mir where
  basic_blocks : List BasicBlockData
  deriving DecidableEq

/-- Default block used to totalize basic-block indexing; the source
indexes with `mir[location.block]`, which is always in bounds for
locations produced by the point interner. -/
def emptyBlock : BasicBlockData :=
  { statements := [], terminator := TerminatorKind.unreachable }

/-- Basic-block lookup `mir[b]`. -/
def Mir.block (mir : Mir) (b : Nat) : BasicBlockData :=
  mir.basic_blocks.getD b emptyBlock

/-- Modelled from the spec: the fact store `facts::AllInputFacts`
(defined in the repository's `borrowck::facts` module, not present
under `src/`), holding the input relations loan-creation
(`borrow_region`), universal regions, region-outlives (`outlives`) and
region-liveness seeds (`region_live_at`). -/
structure AllInputFacts where
  borrow_region : List (Region × Loan × PointIndex)
  universal_region : List Region
  outlives : List (Region × Region × PointIndex)
  region_live_at : List (Region × PointIndex)
  deriving DecidableEq

/-- Check if the statement at the location is an assignment
(`is_assignment` in `polonius_info.rs`).  Indexing past the end of the
statement list (a panic in the source, impossible for interned
locations) is totalized to `false`. -/
def is_assignment (mir : Mir) (location : Location) : Bool :=
  let bb := mir.block location.block
  if bb.statements.length = location.statement_index then false
  else
    match bb.statements[location.statement_index]? with
    | some StatementKind.assign => true
    | _ => false

/-- Check if the location is a call terminator (`is_call` in
`polonius_info.rs`). -/
def is_call (mir : Mir) (location : Location) : Bool :=
  let bb := mir.block location.block
  if bb.statements.length ≠ location.statement_index then false
  else
    match bb.terminator with
    | TerminatorKind.call _ _ => true
    | _ => false

/-- Extract the destination place of the call terminator at the
location (`get_call_destination` in `polonius_info.rs`).  The source
panics when the terminator is not a call; the caller only invokes it
under `is_call`, where that branch is unreachable, so it is totalized
to `none` here. -/
def get_call_destination (mir : Mir) (location : Location) : Option Place :=
  let bb := mir.block location.block
  if bb.statements.length ≠ location.statement_index then none
  else
    match bb.terminator with
    | TerminatorKind.call destination _ => destination.map Prod.fst
    | _ => none

/-- HashMap lookup `variable_regions.get(&local)`: the variable-region
map is carried as an association list with distinct keys. -/
def varRegionGet (variable_regions : List (Local × Region)) (l : Local) : Option Region :=
  (variable_regions.find? fun e => e.1 == l).map fun e => e.2

/-- Seed of the synthetic loan counter: the source scans
`borrow_region` for the largest `loan.index()` starting from `0` and
then increments once. -/
def initial_loan_id (borrow_region : List (Region × Loan × PointIndex)) : Nat :=
  (borrow_region.foldl (fun acc t => if t.2.1 > acc then t.2.1 else acc) 0) + 1

/-- Per-point content of the `outlives_at_point` map: the pairs
`(region1, region2)` of `outlives` tuples at point `p` where neither
region is universal, in the order of the `outlives` vector (the order
in which the source pushes them into the per-point `Vec`). -/
def outlives_at_point (facts : AllInputFacts) (p : PointIndex) : List (Region × Region) :=
  facts.outlives.filterMap fun t =>
    if t.2.2 = p ∧ t.1 ∉ facts.universal_region ∧ t.2.1 ∉ facts.universal_region
    then some (t.1, t.2.1) else none

/-- State threaded through the completion loop of `add_fake_facts`:
the growing `borrow_region` vector, the loan counter, the
`call_magic_wands` map and the two returned move lists. -/
structure FakeState where
  borrow_region : List (Region × Loan × PointIndex)
  last_loan_id : Nat
  call_magic_wands : List (Loan × Local)
  reference_moves : List Loan
  argument_moves : List Loan
  deriving DecidableEq

/-- The `for &(region1, _region2) in &regions` loop of the call branch:
push one argument-move loan per outlives pair, for the pair's first
region, incrementing the counter each time. -/
def push_arg_loans (p : PointIndex) : List (Region × Region) → FakeState → FakeState
  | [], st => st
  | pr :: rest, st =>
      push_arg_loans p rest
        { st with
          borrow_region := st.borrow_region ++ [(pr.1, st.last_loan_id, p)]
          argument_moves := st.argument_moves ++ [st.last_loan_id]
          last_loan_id := st.last_loan_id + 1 }

/-- Body of the completion loop of `add_fake_facts` for one point `p`
with per-point outlives pairs `pairs`.  `none` models an abort:
`unimplemented!` on a non-local call destination, or the
`regions.pop().unwrap()` panic (unreachable, since map entries are
nonempty). -/
def process_point (interner : PointIndex → Location) (mir : Mir)
    (variable_regions : List (Local × Region)) (p : PointIndex)
    (pairs : List (Region × Region)) (st : FakeState) : Option FakeState :=
  if ∀ t ∈ st.borrow_region, t.2.2 ≠ p then
    let location := interner p
    if is_call mir location then
      match get_call_destination mir location with
      | some (Place.local l) =>
          match varRegionGet variable_regions l with
          | some var_region =>
              some (push_arg_loans p pairs
                { st with
                  borrow_region := st.borrow_region ++ [(var_region, st.last_loan_id, p)]
                  last_loan_id := st.last_loan_id + 1
                  call_magic_wands := (st.last_loan_id, l) :: st.call_magic_wands })
          | none => some (push_arg_loans p pairs st)
      | some Place.projection => none
      | none => some (push_arg_loans p pairs st)
    else if is_assignment mir location then
      match pairs.getLast? with
      | some pr =>
          some { st with
            borrow_region := st.borrow_region ++ [(pr.2, st.last_loan_id, p)]
            reference_moves := st.reference_moves ++ [st.last_loan_id]
            last_loan_id := st.last_loan_id + 1 }
      | none => none
    else some st
  else some st

/-- The completion loop of `add_fake_facts` over the given iteration
order of the `outlives_at_point` keys. -/
def run_points (interner : PointIndex → Location) (mir : Mir)
    (variable_regions : List (Local × Region)) (facts : AllInputFacts) :
    List PointIndex → FakeState → Option FakeState
  | [], st => some st
  | p :: rest, st =>
      match process_point interner mir variable_regions p (outlives_at_point facts p) st with
      | some st' => run_points interner mir variable_regions facts rest st'
      | none => none

/-- Fact completion (`add_fake_facts` in `polonius_info.rs`).  Returns
the completed fact store, the final `call_magic_wands` map and the
`(reference_moves, argument_moves)` result of the source function;
`none` models a panic.  `order` is the iteration order of the
`outlives_at_point` HashMap (see `ValidOrder`); `interner` is
`interner.get_point(point).location`. -/
def add_fake_facts (facts : AllInputFacts) (interner : PointIndex → Location)
    (mir : Mir) (variable_regions : List (Local × Region))
    (call_magic_wands : List (Loan × Local)) (order : List PointIndex) :
    Option (AllInputFacts × List (Loan × Local) × List Loan × List Loan) :=
  let st0 : FakeState :=
    { borrow_region := facts.borrow_region
      last_loan_id := initial_loan_id facts.borrow_region
      call_magic_wands := call_magic_wands
      reference_moves := []
      argument_moves := [] }
  match run_points interner mir variable_regions facts order st0 with
  | some st =>
      some ({ facts with borrow_region := st.borrow_region },
            st.call_magic_wands, st.reference_moves, st.argument_moves)
  | none => none

/-- A list of points is a valid HashMap iteration order for the
`outlives_at_point` map of `facts`: no key repeats, every listed point
is a key of the map (has at least one qualifying pair), and every key
of the map is listed. -/
def ValidOrder (facts : AllInputFacts) (order : List PointIndex) : Prop :=
  order.Nodup ∧ (∀ p ∈ order, outlives_at_point facts p ≠ []) ∧
  (∀ t ∈ facts.outlives, outlives_at_point facts t.2.2 ≠ [] → t.2.2 ∈ order)

instance (facts : AllInputFacts) (order : List PointIndex) :
    Decidable (ValidOrder facts order) := by
  unfold ValidOrder; infer_instance

/-- Loan-id block `[n, n + 1, ..., n + k - 1]` handed out by the
monotone counter. -/
def loan_ids (n : Nat) : Nat → List Loan
  | 0 => []
  | k + 1 => n :: loan_ids (n + 1) k

/-- Spelled-out borrow-region entries pushed by the argument-move loop
starting at counter value `n`: one entry per outlives pair, for the
pair's first region, with consecutive loan ids. -/
def arg_entries (n : Nat) (p : PointIndex) : List (Region × Region) → List (Region × Loan × PointIndex)
  | [] => []
  | pr :: rest => (pr.1, n, p) :: arg_entries (n + 1) p rest

/-- Loop of `find_variable`: scan the variable-region entries keeping
the match found so far in `found`; a second match trips the source's
`assert!(local.is_none())`, modelled by the `none` result. -/
def find_variable_loop (region : Region) :
    List (Local × Region) → Option Local → Option (Option Local)
  | [], found => some found
  | e :: rest, found =>
      if e.2 = region then
        match found with
        | none => find_variable_loop region rest (some e.1)
        | some _ => none
      else find_variable_loop region rest found

/-- Reverse lookup `find_variable` of `PoloniusInfo`: scan the
variable-region map for an entry whose region matches, asserting that
at most one does.  The outer `Option` models the assertion failure
(`none` = abort); the inner one is the source's return value. -/
def find_variable (variable_regions : List (Local × Region)) (region : Region) :
    Option (Option Local) :=
  find_variable_loop region variable_regions none

/-- Style of an emitted CFG edge, per the `write_edge!` macro of
`mir_dumper.rs`: a plain edge, a highlighted unwind edge
(`[color=red]`), or a dashed imaginary edge (`[style="dashed"]`). -/
inductive EdgeStyle where
  | plain
  | unwindStyle
  | imaginaryStyle
  deriving DecidableEq

/-- Target of an emitted CFG edge: a basic block, or one of the named
pseudo-nodes the renderer uses for `Resume`/`Abort`/`Return`
(`write_edge!(self, bb, str target)`). -/
inductive EdgeTarget where
  | block (b : Nat)
  | str (s : String)
  deriving DecidableEq

/-- Edge emission of `visit_terminator` in `mir_dumper.rs`: the list of
`(target, style)` edges written for one terminator, in emission order.
`none` models the `unimplemented!` panics on `Yield` and
`GeneratorDrop`. -/
def visit_terminator : TerminatorKind → Option (List (EdgeTarget × EdgeStyle))
  | TerminatorKind.goto target => some [(EdgeTarget.block target, EdgeStyle.plain)]
  | TerminatorKind.switchInt targets =>
      some (targets.map fun t => (EdgeTarget.block t, EdgeStyle.plain))
  | TerminatorKind.resume => some [(EdgeTarget.str (r"resume"), EdgeStyle.plain)]
  | TerminatorKind.abort => some [(EdgeTarget.str (r"abort"), EdgeStyle.plain)]
  | TerminatorKind.«return» => some [(EdgeTarget.str (r"return"), EdgeStyle.plain)]
  | TerminatorKind.unreachable => some []
  | TerminatorKind.dropAndReplace target uw =>
      some ([(EdgeTarget.block target, EdgeStyle.plain)] ++
        uw.toList.map fun t => (EdgeTarget.block t, EdgeStyle.unwindStyle))
  | TerminatorKind.drop target uw =>
      some ([(EdgeTarget.block target, EdgeStyle.plain)] ++
        uw.toList.map fun t => (EdgeTarget.block t, EdgeStyle.unwindStyle))
  | TerminatorKind.call destination cleanup =>
      some ((destination.toList.map fun d => (EdgeTarget.block d.2, EdgeStyle.plain)) ++
        cleanup.toList.map fun t => (EdgeTarget.block t, EdgeStyle.unwindStyle))
  | TerminatorKind.assert target cleanup =>
      some ([(EdgeTarget.block target, EdgeStyle.plain)] ++
        cleanup.toList.map fun t => (EdgeTarget.block t, EdgeStyle.unwindStyle))
  | TerminatorKind.yield => none
  | TerminatorKind.generatorDrop => none
  | TerminatorKind.falseEdges real_target imaginary_targets =>
      some ([(EdgeTarget.block real_target, EdgeStyle.plain)] ++
        imaginary_targets.map fun t => (EdgeTarget.block t, EdgeStyle.imaginaryStyle))
  | TerminatorKind.falseUnwind real_target uw =>
      some ([(EdgeTarget.block real_target, EdgeStyle.plain)] ++
        uw.toList.map fun t => (EdgeTarget.block t, EdgeStyle.imaginaryStyle))

/-- Normal successors of a terminator, for the edge-tagging claim:
everything that is neither an unwind/cleanup successor nor an imaginary
successor, including the renderer's `resume`/`abort`/`return`
pseudo-targets. -/
def normal_successors : TerminatorKind → List EdgeTarget
  | TerminatorKind.goto target => [EdgeTarget.block target]
  | TerminatorKind.switchInt targets => targets.map EdgeTarget.block
  | TerminatorKind.resume => [EdgeTarget.str (r"resume")]
  | TerminatorKind.abort => [EdgeTarget.str (r"abort")]
  | TerminatorKind.«return» => [EdgeTarget.str (r"return")]
  | TerminatorKind.unreachable => []
  | TerminatorKind.dropAndReplace target _ => [EdgeTarget.block target]
  | TerminatorKind.drop target _ => [EdgeTarget.block target]
  | TerminatorKind.call destination _ => destination.toList.map fun d => EdgeTarget.block d.2
  | TerminatorKind.assert target _ => [EdgeTarget.block target]
  | TerminatorKind.yield => []
  | TerminatorKind.generatorDrop => []
  | TerminatorKind.falseEdges real_target _ => [EdgeTarget.block real_target]
  | TerminatorKind.falseUnwind real_target _ => [EdgeTarget.block real_target]

/-- Unwind/cleanup successors of the drop, drop-and-replace, call and
assert terminators. -/
def unwind_successors : TerminatorKind → List Nat
  | TerminatorKind.dropAndReplace _ uw => uw.toList
  | TerminatorKind.drop _ uw => uw.toList
  | TerminatorKind.call _ cleanup => cleanup.toList
  | TerminatorKind.assert _ cleanup => cleanup.toList
  | _ => []

/-- Imaginary successors of the false-edge terminators: the
`imaginary_targets` of `FalseEdges` and the fake `unwind` of
`FalseUnwind` (rendered dashed by the source). -/
def imaginary_successors : TerminatorKind → List Nat
  | TerminatorKind.falseEdges _ imaginary_targets => imaginary_targets
  | TerminatorKind.falseUnwind _ uw => uw.toList
  | _ => []

/-- Edge list demanded by the claim: one plain edge per normal
successor, one highlighted edge per unwind successor, one dashed edge
per imaginary successor, and a panic on the two unimplemented
terminator kinds. -/
def expected_edges (t : TerminatorKind) : Option (List (EdgeTarget × EdgeStyle)) :=
  match t with
  | TerminatorKind.yield => none
  | TerminatorKind.generatorDrop => none
  | _ =>
      some ((normal_successors t).map (fun e => (e, EdgeStyle.plain)) ++
        (unwind_successors t).map (fun b => (EdgeTarget.block b, EdgeStyle.unwindStyle)) ++
        (imaginary_successors t).map (fun b => (EdgeTarget.block b, EdgeStyle.imaginaryStyle)))

/-- Function name, modelled as its character list so that the
`ends_with` check is executable. -/
abbrev FnName := List Char

/-- The `__spec` suffix checked by `visit_fn`. -/
def specSuffix : FnName := ['_', '_', 's', 'p', 'e', 'c']

/-- String suffix test `name.ends_with(suffix)` on character lists. -/
def ends_with (name suffix : FnName) : Bool :=
  List.isSuffixOf suffix name

/-- Function kinds distinguished by `visit_fn` in `mir_dumper.rs`:
top-level item functions (with their name) versus everything else
(methods, closures), which the visitor skips immediately. -/
inductive FnKind where
  | itemFn (name : FnName)
  | otherFn
  deriving DecidableEq

/-- Work performed by `visit_fn` on a processed function, in source
order: borrow checking, creation of the `graph.dot` report file,
the definitely-initialized analysis, fact loading plus completion
(`PoloniusInfo::new`), and report printing. -/
inductive VisitStep where
  | mir_borrowck
  | create_report_file
  | compute_initialization
  | load_polonius_info
  | print_report
  deriving DecidableEq

/-- The full work list of a processed function. -/
def processSteps : List VisitStep :=
  [VisitStep.mir_borrowck, VisitStep.create_report_file,
   VisitStep.compute_initialization, VisitStep.load_polonius_info,
   VisitStep.print_report]

/-- Dispatch logic of `visit_fn` in `mir_dumper.rs`: skip non-item
functions, skip functions whose name ends with `__spec`, skip functions
filtered out by the `DUMP_MIR_PROC` configuration value, and process
the rest.  The returned list is the sequence of side effects performed
(empty = the early `return`s did no work). -/
def visit_fn (fk : FnKind) (dump_mir_proc : Option FnName) : List VisitStep :=
  match fk with
  | FnKind.otherFn => []
  | FnKind.itemFn name =>
      if ends_with name specSuffix then []
      else
        match dump_mir_proc with
        | some value => if name ≠ value then [] else processSteps
        | none => processSteps

/-- Concrete interner for the witness scenarios: every point maps to
block 0, index 0. -/
def itn0 : PointIndex → Location := fun _ => { block := 0, statement_index := 0 }

/-- Witness CFG with one call terminator whose destination is the
local variable `3` and whose return block is `1`. -/
def mir_call : Mir :=
  { basic_blocks := [
      { statements := [], terminator := TerminatorKind.call (some (Place.local 3, 1)) none },
      { statements := [], terminator := TerminatorKind.«return» } ] }

/-- Witness CFG with one call terminator whose destination is a
non-local place. -/
def mir_call_proj : Mir :=
  { basic_blocks := [
      { statements := [], terminator := TerminatorKind.call (some (Place.projection, 1)) none },
      { statements := [], terminator := TerminatorKind.«return» } ] }

/-- Witness CFG whose location (0, 0) is an assignment statement. -/
def mir_assign : Mir :=
  { basic_blocks := [
      { statements := [StatementKind.assign], terminator := TerminatorKind.goto 1 },
      { statements := [], terminator := TerminatorKind.«return» } ] }

/-- Witness fact store: one non-universal outlives pair at point 0, no
loan-creation facts. -/
def facts_call : AllInputFacts :=
  { borrow_region := [], universal_region := [], outlives := [(1, 2, 0)],
    region_live_at := [] }

/-- Witness fact store: two non-universal outlives pairs at point 0, no
loan-creation facts. -/
def facts_assign : AllInputFacts :=
  { borrow_region := [], universal_region := [], outlives := [(1, 2, 0), (3, 4, 0)],
    region_live_at := [] }

/-- Witness fact store: one outlives pair at point 0 and one
pre-existing loan-creation fact at the unrelated point 3 with loan id
5. -/
def facts_pre : AllInputFacts :=
  { borrow_region := [(9, 5, 3)], universal_region := [], outlives := [(1, 2, 0)],
    region_live_at := [(9, 3)] }

/-- Witness fact store: one outlives pair at point 0 together with a
pre-existing loan-creation fact at that same point. -/
def facts_have : AllInputFacts :=
  { borrow_region := [(9, 5, 0)], universal_region := [], outlives := [(1, 2, 0)],
    region_live_at := [] }

/-- Witness variable-region map: local 3 has region 7. -/
def vr_call : List (Local × Region) := [(3, 7)]

/-- Destination-loan facts demanded by the claim for a call point whose
destination is `dest` when the loan counter stands at `n`: one fact for
the destination local's region when it has one, nothing otherwise. -/
def dest_loan_facts (vr : List (Local × Region)) (dest : Option Place) (n : Nat)
    (p : PointIndex) : List (Region × Loan × PointIndex) :=
  match dest with
  | some (Place.local l) =>
      match varRegionGet vr l with
      | some r => [(r, n, p)]
      | none => []
  | _ => []

/-- Result of completion on the call scenario. -/
def out_call : AllInputFacts × List (Loan × Local) × List Loan × List Loan :=
  ({ borrow_region := [(7, 1, 0), (1, 2, 0)], universal_region := [],
     outlives := [(1, 2, 0)], region_live_at := [] }, [(1, 3)], [], [2])

/-- Result of completion on the assignment scenario. -/
def out_assign : AllInputFacts × List (Loan × Local) × List Loan × List Loan :=
  ({ borrow_region := [(4, 1, 0)], universal_region := [],
     outlives := [(1, 2, 0), (3, 4, 0)], region_live_at := [] }, [], [1], [])

/-- Result of completion on the scenario with a pre-existing loan at
another point. -/
def out_pre : AllInputFacts × List (Loan × Local) × List Loan × List Loan :=
  ({ borrow_region := [(9, 5, 3), (2, 6, 0)], universal_region := [],
     outlives := [(1, 2, 0)], region_live_at := [(9, 3)] }, [], [6], [])

/-- Result of completion on the scenario whose only outlives point
already has a loan fact: nothing is added. -/
def out_have : AllInputFacts × List (Loan × Local) × List Loan × List Loan :=
  (facts_have, [], [], [])

theorem loan_ids_length (n k : Nat) : (loan_ids n k).length = k := by
  induction k generalizing n with
  | zero => rfl
  | succ k ih => simp [loan_ids, ih]

theorem loan_ids_mem {m n k : Nat} (h : m ∈ loan_ids n k) : n ≤ m ∧ m < n + k := by
  induction k generalizing n with
  | zero => simp [loan_ids] at h
  | succ k ih =>
      simp only [loan_ids, List.mem_cons] at h
      rcases h with rfl | h
      · omega
      · have := ih h
        omega

theorem loan_ids_nodup (n k : Nat) : (loan_ids n k).Nodup := by
  induction k generalizing n with
  | zero => simp [loan_ids]
  | succ k ih =>
      simp only [loan_ids, List.nodup_cons]
      refine ⟨fun h => ?_, ih (n + 1)⟩
      have := loan_ids_mem h
      omega

theorem loan_ids_append (n k₁ k₂ : Nat) :
    loan_ids n (k₁ + k₂) = loan_ids n k₁ ++ loan_ids (n + k₁) k₂ := by
  induction k₁ generalizing n with
  | zero => simp [loan_ids]
  | succ k₁ ih =>
      have h : k₁ + 1 + k₂ = (k₁ + k₂) + 1 := by omega
      rw [h]
      simp only [loan_ids, ih (n + 1), List.cons_append]
      have h2 : n + 1 + k₁ = n + (k₁ + 1) := by omega
      rw [h2]

theorem arg_entries_length (n : Nat) (p : PointIndex) (pairs : List (Region × Region)) :
    (arg_entries n p pairs).length = pairs.length := by
  induction pairs generalizing n with
  | nil => rfl
  | cons pr rest ih => simp [arg_entries, ih]

theorem arg_entries_point {n : Nat} {p : PointIndex} {pairs : List (Region × Region)} :
    ∀ t ∈ arg_entries n p pairs, t.2.2 = p := by
  induction pairs generalizing n with
  | nil => simp [arg_entries]
  | cons pr rest ih =>
      simp only [arg_entries, List.mem_cons]
      rintro t (rfl | h)
      · rfl
      · exact ih t h

theorem arg_entries_loans (n : Nat) (p : PointIndex) (pairs : List (Region × Region)) :
    (arg_entries n p pairs).map (fun t => t.2.1) = loan_ids n pairs.length := by
  induction pairs generalizing n with
  | nil => rfl
  | cons pr rest ih => simp [arg_entries, loan_ids, ih]

theorem arg_entries_regions (n : Nat) (p : PointIndex) (pairs : List (Region × Region)) :
    (arg_entries n p pairs).map (fun t => t.1) = pairs.map (fun q => q.1) := by
  induction pairs generalizing n with
  | nil => rfl
  | cons pr rest ih => simp [arg_entries, ih]

theorem push_arg_loans_eq (p : PointIndex) (pairs : List (Region × Region)) (st : FakeState) :
    push_arg_loans p pairs st =
      { borrow_region := st.borrow_region ++ arg_entries st.last_loan_id p pairs
        last_loan_id := st.last_loan_id + pairs.length
        call_magic_wands := st.call_magic_wands
        reference_moves := st.reference_moves
        argument_moves := st.argument_moves ++ loan_ids st.last_loan_id pairs.length } := by
  induction pairs generalizing st with
  | nil => simp [push_arg_loans, arg_entries, loan_ids]
  | cons pr rest ih =>
      rw [push_arg_loans, ih]
      simp only [arg_entries, loan_ids, FakeState.mk.injEq]
      refine ⟨by simp, by simp; omega, by simp, by simp, by simp⟩


theorem pp_skip {interner : PointIndex → Location} {mir : Mir}
    {vr : List (Local × Region)} {p : PointIndex} {pairs : List (Region × Region)}
    {st : FakeState} (hch : ¬ ∀ t ∈ st.borrow_region, t.2.2 ≠ p) :
    process_point interner mir vr p pairs st = some st := by
  unfold process_point
  rw [if_neg hch]

theorem pp_call_local_some {interner : PointIndex → Location} {mir : Mir}
    {vr : List (Local × Region)} {p : PointIndex} {pairs : List (Region × Region)}
    {st : FakeState} {l : Local} {r : Region}
    (hch : ∀ t ∈ st.borrow_region, t.2.2 ≠ p)
    (hc : is_call mir (interner p) = true)
    (hd : get_call_destination mir (interner p) = some (Place.local l))
    (hv : varRegionGet vr l = some r) :
    process_point interner mir vr p pairs st =
      some (push_arg_loans p pairs
        { st with
          borrow_region := st.borrow_region ++ [(r, st.last_loan_id, p)]
          last_loan_id := st.last_loan_id + 1
          call_magic_wands := (st.last_loan_id, l) :: st.call_magic_wands }) := by
  unfold process_point
  rw [if_pos hch]
  simp [hc, hd, hv]

theorem pp_call_local_none {interner : PointIndex → Location} {mir : Mir}
    {vr : List (Local × Region)} {p : PointIndex} {pairs : List (Region × Region)}
    {st : FakeState} {l : Local}
    (hch : ∀ t ∈ st.borrow_region, t.2.2 ≠ p)
    (hc : is_call mir (interner p) = true)
    (hd : get_call_destination mir (interner p) = some (Place.local l))
    (hv : varRegionGet vr l = none) :
    process_point interner mir vr p pairs st = some (push_arg_loans p pairs st) := by
  unfold process_point
  rw [if_pos hch]
  simp [hc, hd, hv]

theorem pp_call_none {interner : PointIndex → Location} {mir : Mir}
    {vr : List (Local × Region)} {p : PointIndex} {pairs : List (Region × Region)}
    {st : FakeState}
    (hch : ∀ t ∈ st.borrow_region, t.2.2 ≠ p)
    (hc : is_call mir (interner p) = true)
    (hd : get_call_destination mir (interner p) = none) :
    process_point interner mir vr p pairs st = some (push_arg_loans p pairs st) := by
  unfold process_point
  rw [if_pos hch]
  simp [hc, hd]

theorem pp_call_proj {interner : PointIndex → Location} {mir : Mir}
    {vr : List (Local × Region)} {p : PointIndex} {pairs : List (Region × Region)}
    {st : FakeState}
    (hch : ∀ t ∈ st.borrow_region, t.2.2 ≠ p)
    (hc : is_call mir (interner p) = true)
    (hd : get_call_destination mir (interner p) = some Place.projection) :
    process_point interner mir vr p pairs st = none := by
  unfold process_point
  rw [if_pos hch]
  simp [hc, hd]

theorem pp_assign {interner : PointIndex → Location} {mir : Mir}
    {vr : List (Local × Region)} {p : PointIndex} {pairs : List (Region × Region)}
    {st : FakeState} {pr : Region × Region}
    (hch : ∀ t ∈ st.borrow_region, t.2.2 ≠ p)
    (hc : is_call mir (interner p) = false)
    (ha : is_assignment mir (interner p) = true)
    (hl : pairs.getLast? = some pr) :
    process_point interner mir vr p pairs st =
      some { st with
        borrow_region := st.borrow_region ++ [(pr.2, st.last_loan_id, p)]
        reference_moves := st.reference_moves ++ [st.last_loan_id]
        last_loan_id := st.last_loan_id + 1 } := by
  unfold process_point
  rw [if_pos hch]
  simp [hc, ha, hl]

theorem pp_assign_nil {interner : PointIndex → Location} {mir : Mir}
    {vr : List (Local × Region)} {p : PointIndex} {pairs : List (Region × Region)}
    {st : FakeState}
    (hch : ∀ t ∈ st.borrow_region, t.2.2 ≠ p)
    (hc : is_call mir (interner p) = false)
    (ha : is_assignment mir (interner p) = true)
    (hl : pairs.getLast? = none) :
    process_point interner mir vr p pairs st = none := by
  unfold process_point
  rw [if_pos hch]
  simp [hc, ha, hl]

theorem pp_neither {interner : PointIndex → Location} {mir : Mir}
    {vr : List (Local × Region)} {p : PointIndex} {pairs : List (Region × Region)}
    {st : FakeState}
    (hc : is_call mir (interner p) = false)
    (ha : is_assignment mir (interner p) = false) :
    process_point interner mir vr p pairs st = some st := by
  by_cases hch : ∀ t ∈ st.borrow_region, t.2.2 ≠ p
  · unfold process_point
    rw [if_pos hch]
    simp [hc, ha]
  · exact pp_skip hch

theorem process_point_shape {interner : PointIndex → Location} {mir : Mir}
    {vr : List (Local × Region)} {p : PointIndex} {pairs : List (Region × Region)}
    {st st' : FakeState}
    (h : process_point interner mir vr p pairs st = some st') :
    ∃ δ w rm am,
      st' = { borrow_region := st.borrow_region ++ δ
              last_loan_id := st.last_loan_id + δ.length
              call_magic_wands := w ++ st.call_magic_wands
              reference_moves := st.reference_moves ++ rm
              argument_moves := st.argument_moves ++ am } ∧
      (∀ t ∈ δ, t.2.2 = p) ∧
      δ.map (fun t => t.2.1) = loan_ids st.last_loan_id δ.length := by
  by_cases hch : ∀ t ∈ st.borrow_region, t.2.2 ≠ p
  · cases hc : is_call mir (interner p) with
    | true =>
        cases hd : get_call_destination mir (interner p) with
        | none =>
            rw [pp_call_none hch hc hd, push_arg_loans_eq, Option.some_inj] at h
            subst h
            refine ⟨arg_entries st.last_loan_id p pairs, [], [],
              loan_ids st.last_loan_id pairs.length, ?_,
              fun t ht => arg_entries_point t ht, ?_⟩
            · simp [arg_entries_length]
            · rw [arg_entries_loans, arg_entries_length]
        | some pl =>
            cases pl with
            | projection =>
                rw [pp_call_proj hch hc hd] at h
                exact Option.noConfusion h
            | «local» l =>
                cases hv : varRegionGet vr l with
                | none =>
                    rw [pp_call_local_none hch hc hd hv, push_arg_loans_eq,
                      Option.some_inj] at h
                    subst h
                    refine ⟨arg_entries st.last_loan_id p pairs, [], [],
                      loan_ids st.last_loan_id pairs.length, ?_,
                      fun t ht => arg_entries_point t ht, ?_⟩
                    · simp [arg_entries_length]
                    · rw [arg_entries_loans, arg_entries_length]
                | some r =>
                    rw [pp_call_local_some hch hc hd hv, push_arg_loans_eq,
                      Option.some_inj] at h
                    subst h
                    refine ⟨(r, st.last_loan_id, p) ::
                        arg_entries (st.last_loan_id + 1) p pairs,
                      [(st.last_loan_id, l)], [],
                      loan_ids (st.last_loan_id + 1) pairs.length, ?_, ?_, ?_⟩
                    · have hlen : st.last_loan_id + 1 + pairs.length =
                          st.last_loan_id + (pairs.length + 1) := by omega
                      simp [arg_entries_length, List.append_assoc, hlen]
                    · intro t ht
                      rcases List.mem_cons.mp ht with rfl | ht'
                      · rfl
                      · exact arg_entries_point t ht'
                    · simp only [List.map_cons, arg_entries_loans, List.length_cons,
                        arg_entries_length, loan_ids]
    | false =>
        cases ha : is_assignment mir (interner p) with
        | true =>
            cases hl : pairs.getLast? with
            | none =>
                rw [pp_assign_nil hch hc ha hl] at h
                exact Option.noConfusion h
            | some pr =>
                rw [pp_assign hch hc ha hl, Option.some_inj] at h
                subst h
                refine ⟨[(pr.2, st.last_loan_id, p)], [], [st.last_loan_id], [],
                  ?_, ?_, ?_⟩
                · simp
                · intro t ht
                  simp only [List.mem_singleton] at ht
                  subst ht
                  rfl
                · simp [loan_ids]
        | false =>
            rw [pp_neither hc ha, Option.some_inj] at h
            subst h
            exact ⟨[], [], [], [], by simp, by simp, by simp [loan_ids]⟩
  · rw [pp_skip hch, Option.some_inj] at h
    subst h
    exact ⟨[], [], [], [], by simp, by simp, by simp [loan_ids]⟩

theorem run_points_append {interner : PointIndex → Location} {mir : Mir}
    {vr : List (Local × Region)} {facts : AllInputFacts}
    (l₁ l₂ : List PointIndex) (st : FakeState) :
    run_points interner mir vr facts (l₁ ++ l₂) st =
      (run_points interner mir vr facts l₁ st).bind
        (fun st' => run_points interner mir vr facts l₂ st') := by
  induction l₁ generalizing st with
  | nil => simp [run_points]
  | cons p rest ih =>
      simp only [List.cons_append, run_points]
      cases hpp : process_point interner mir vr p (outlives_at_point facts p) st with
      | none => simp
      | some st₁ => simp [ih st₁]

theorem run_points_shape {interner : PointIndex → Location} {mir : Mir}
    {vr : List (Local × Region)} {facts : AllInputFacts}
    {ps : List PointIndex} {st st' : FakeState}
    (h : run_points interner mir vr facts ps st = some st') :
    ∃ δ, st'.borrow_region = st.borrow_region ++ δ ∧
      (∀ t ∈ δ, t.2.2 ∈ ps) ∧
      st'.last_loan_id = st.last_loan_id + δ.length ∧
      δ.map (fun t => t.2.1) = loan_ids st.last_loan_id δ.length ∧
      (∀ w ∈ st.call_magic_wands, w ∈ st'.call_magic_wands) := by
  induction ps generalizing st with
  | nil =>
      simp only [run_points, Option.some_inj] at h
      subst h
      exact ⟨[], by simp, by simp, by simp, by simp [loan_ids], fun w hw => hw⟩
  | cons p rest ih =>
      simp only [run_points] at h
      cases hpp : process_point interner mir vr p (outlives_at_point facts p) st with
      | none => rw [hpp] at h; exact Option.noConfusion h
      | some st₁ =>
          rw [hpp] at h
          obtain ⟨δ₂, hbr₂, hpt₂, hlast₂, hids₂, hw₂⟩ := ih h
          obtain ⟨δ₁, w₁, rm₁, am₁, hst₁, hpt₁, hids₁⟩ := process_point_shape hpp
          subst hst₁
          refine ⟨δ₁ ++ δ₂, ?_, ?_, ?_, ?_, ?_⟩
          · rw [hbr₂]
            simp [List.append_assoc]
          · intro t ht
            rcases List.mem_append.mp ht with ht | ht
            · rw [hpt₁ t ht]
              exact List.mem_cons_self p rest
            · exact List.mem_cons_of_mem p (hpt₂ t ht)
          · rw [hlast₂]
            simp only [List.length_append]
            omega
          · rw [List.map_append, hids₁, hids₂]
            simp only [List.length_append]
            rw [loan_ids_append]
          · intro w hw
            exact hw₂ w (List.mem_append_right w₁ hw)

theorem filter_point_nil {δ : List (Region × Loan × PointIndex)} {p : PointIndex}
    (h : ∀ t ∈ δ, t.2.2 ≠ p) : δ.filter (fun t => t.2.2 == p) = [] := by
  rw [List.filter_eq_nil_iff]
  intro t ht
  simp [h t ht]

theorem run_points_mid {interner : PointIndex → Location} {mir : Mir}
    {vr : List (Local × Region)} {facts : AllInputFacts}
    {ps : List PointIndex} {st st' : FakeState} {p : PointIndex}
    (hnd : ps.Nodup) (hmem : p ∈ ps)
    (h : run_points interner mir vr facts ps st = some st') :
    ∃ st₁ st₂,
      process_point interner mir vr p (outlives_at_point facts p) st₁ = some st₂ ∧
      st₁.borrow_region.filter (fun t => t.2.2 == p) =
        st.borrow_region.filter (fun t => t.2.2 == p) ∧
      st'.borrow_region.filter (fun t => t.2.2 == p) =
        st₂.borrow_region.filter (fun t => t.2.2 == p) ∧
      st.last_loan_id ≤ st₁.last_loan_id ∧
      (∀ w ∈ st₂.call_magic_wands, w ∈ st'.call_magic_wands) := by
  obtain ⟨pre, post, rfl⟩ := List.append_of_mem hmem
  have hsplit := List.nodup_append.mp hnd
  have hppre : p ∉ pre := fun hin => (hsplit.2.2 hin) (List.mem_cons_self p post)
  have hppost : p ∉ post := (List.nodup_cons.mp hsplit.2.1).1
  rw [run_points_append] at h
  cases h1 : run_points interner mir vr facts pre st with
  | none => rw [h1] at h; exact Option.noConfusion h
  | some st₁ =>
      rw [h1, Option.some_bind] at h
      rw [run_points] at h
      cases hpp : process_point interner mir vr p (outlives_at_point facts p) st₁ with
      | none => rw [hpp] at h; exact Option.noConfusion h
      | some st₂ =>
          rw [hpp] at h
          obtain ⟨δ₁, hbr₁, hpt₁, hlast₁, _, _⟩ := run_points_shape h1
          obtain ⟨δ₃, hbr₃, hpt₃, _, _, hw₃⟩ := run_points_shape h
          refine ⟨st₁, st₂, hpp, ?_, ?_, by omega, hw₃⟩
          · have hnil : δ₁.filter (fun t => t.2.2 == p) = [] :=
              filter_point_nil fun t ht hq => hppre (hq ▸ hpt₁ t ht)
            rw [hbr₁, List.filter_append, hnil, List.append_nil]
          · have hnil : δ₃.filter (fun t => t.2.2 == p) = [] :=
              filter_point_nil fun t ht hq => hppost (hq ▸ hpt₃ t ht)
            rw [hbr₃, List.filter_append, hnil, List.append_nil]

theorem outlives_at_point_ne_nil {facts : AllInputFacts} {p : PointIndex}
    (h : outlives_at_point facts p ≠ []) : ∃ t ∈ facts.outlives, t.2.2 = p := by
  by_contra hc
  push_neg at hc
  apply h
  unfold outlives_at_point
  rw [List.filterMap_eq_nil_iff]
  intro t ht
  rw [if_neg]
  intro hcond
  exact hc t ht hcond.1

theorem validOrder_mem {facts : AllInputFacts} {order : List PointIndex}
    (hvo : ValidOrder facts order) (p : PointIndex) :
    p ∈ order ↔ outlives_at_point facts p ≠ [] := by
  constructor
  · exact fun hp => hvo.2.1 p hp
  · intro hne
    obtain ⟨t, ht, htp⟩ := outlives_at_point_ne_nil hne
    have := hvo.2.2 t ht
    rw [htp] at this
    exact this hne

theorem filter_nil_no_fact {L : List (Region × Loan × PointIndex)} {p : PointIndex}
    (h : L.filter (fun t => t.2.2 == p) = []) : ∀ t ∈ L, t.2.2 ≠ p := by
  intro t ht hq
  have := List.filter_eq_nil_iff.mp h t ht
  simp [hq] at this

theorem foldl_max_le_acc (l : List (Region × Loan × PointIndex)) (acc : Nat) :
    acc ≤ l.foldl (fun acc t => if t.2.1 > acc then t.2.1 else acc) acc := by
  induction l generalizing acc with
  | nil => exact Nat.le_refl acc
  | cons t rest ih =>
      simp only [List.foldl_cons]
      refine Nat.le_trans ?_ (ih _)
      dsimp only
      split <;> omega

theorem mem_le_foldl_max {l : List (Region × Loan × PointIndex)}
    {s : Region × Loan × PointIndex} (hs : s ∈ l) (acc : Nat) :
    s.2.1 ≤ l.foldl (fun acc t => if t.2.1 > acc then t.2.1 else acc) acc := by
  induction l generalizing acc with
  | nil => cases hs
  | cons t rest ih =>
      simp only [List.foldl_cons]
      rcases List.mem_cons.mp hs with rfl | hs'
      · refine Nat.le_trans ?_ (foldl_max_le_acc rest _)
        dsimp only
        split <;> omega
      · exact ih hs' _

theorem input_loan_lt {borrow_region : List (Region × Loan × PointIndex)}
    {s : Region × Loan × PointIndex} (hs : s ∈ borrow_region) :
    (s.2.1 : Nat) < initial_loan_id borrow_region :=
  Nat.lt_succ_of_le (mem_le_foldl_max hs 0)

theorem aff_shape {facts : AllInputFacts} {interner : PointIndex → Location} {mir : Mir}
    {vr : List (Local × Region)} {w : List (Loan × Local)} {order : List PointIndex}
    {out : AllInputFacts × List (Loan × Local) × List Loan × List Loan}
    (h : add_fake_facts facts interner mir vr w order = some out) :
    ∃ δ, out.1.borrow_region = facts.borrow_region ++ δ ∧
      (∀ t ∈ δ, t.2.2 ∈ order) ∧
      δ.map (fun t => t.2.1) = loan_ids (initial_loan_id facts.borrow_region) δ.length ∧
      out.1.universal_region = facts.universal_region ∧
      out.1.outlives = facts.outlives ∧
      out.1.region_live_at = facts.region_live_at ∧
      (∀ x ∈ w, x ∈ out.2.1) := by
  simp only [add_fake_facts] at h
  cases hrun : run_points interner mir vr facts order
      { borrow_region := facts.borrow_region
        last_loan_id := initial_loan_id facts.borrow_region
        call_magic_wands := w
        reference_moves := []
        argument_moves := [] } with
  | none => rw [hrun] at h; exact Option.noConfusion h
  | some st =>
      rw [hrun, Option.some_inj] at h
      subst h
      obtain ⟨δ, hbr, hpt, hlast, hids, hw⟩ := run_points_shape hrun
      exact ⟨δ, hbr, hpt, hids, rfl, rfl, rfl, hw⟩

theorem aff_mid {facts : AllInputFacts} {interner : PointIndex → Location} {mir : Mir}
    {vr : List (Local × Region)} {w : List (Loan × Local)} {order : List PointIndex}
    {out : AllInputFacts × List (Loan × Local) × List Loan × List Loan} {p : PointIndex}
    (hvo : ValidOrder facts order) (hne : outlives_at_point facts p ≠ [])
    (h : add_fake_facts facts interner mir vr w order = some out) :
    ∃ st₁ st₂,
      process_point interner mir vr p (outlives_at_point facts p) st₁ = some st₂ ∧
      st₁.borrow_region.filter (fun t => t.2.2 == p) =
        facts.borrow_region.filter (fun t => t.2.2 == p) ∧
      out.1.borrow_region.filter (fun t => t.2.2 == p) =
        st₂.borrow_region.filter (fun t => t.2.2 == p) ∧
      initial_loan_id facts.borrow_region ≤ st₁.last_loan_id ∧
      (∀ x ∈ st₂.call_magic_wands, x ∈ out.2.1) := by
  have hp : p ∈ order := (validOrder_mem hvo p).mpr hne
  simp only [add_fake_facts] at h
  cases hrun : run_points interner mir vr facts order
      { borrow_region := facts.borrow_region
        last_loan_id := initial_loan_id facts.borrow_region
        call_magic_wands := w
        reference_moves := []
        argument_moves := [] } with
  | none => rw [hrun] at h; exact Option.noConfusion h
  | some st =>
      rw [hrun, Option.some_inj] at h
      subst h
      obtain ⟨st₁, st₂, hpp, hf₁, hf₂, hle, hwp⟩ := run_points_mid hvo.1 hp hrun
      exact ⟨st₁, st₂, hpp, hf₁, hf₂, hle, hwp⟩

theorem filter_point_self {δ : List (Region × Loan × PointIndex)} {p : PointIndex}
    (h : ∀ t ∈ δ, t.2.2 = p) : δ.filter (fun t => t.2.2 == p) = δ := by
  rw [List.filter_eq_self]
  intro t ht
  simp [h t ht]

theorem loan_ids_eq_range (n k : Nat) :
    loan_ids n k = (List.range k).map (fun i => n + i) := by
  induction k generalizing n with
  | zero => simp [loan_ids]
  | succ k ih =>
      have hfun : (fun i => n + Nat.succ i) = (fun i => (n + 1) + i) :=
        funext fun i => by omega
      rw [List.range_succ_eq_map]
      simp only [List.map_cons, List.map_map, Nat.add_zero]
      rw [loan_ids, ih]
      refine congrArg (List.cons n) ?_
      rw [← hfun]
      rfl

/-- C7: completion only adds tuples to the fact store: every input
loan-creation tuple is still present unchanged after completion (the
output `borrow_region` is the input followed by the synthesized
tuples), and the region-outlives, region-liveness and universal-region
relations are left entirely unmodified. -/
theorem add_fake_facts_only_adds
    {facts : AllInputFacts} {interner : PointIndex → Location} {mir : Mir}
    {vr : List (Local × Region)} {w : List (Loan × Local)} {order : List PointIndex}
    {out : AllInputFacts × List (Loan × Local) × List Loan × List Loan}
    (h : add_fake_facts facts interner mir vr w order = some out) :
    (∃ δ, out.1.borrow_region = facts.borrow_region ++ δ) ∧
    (∀ t ∈ facts.borrow_region, t ∈ out.1.borrow_region) ∧
    out.1.universal_region = facts.universal_region ∧
    out.1.outlives = facts.outlives ∧
    out.1.region_live_at = facts.region_live_at := by
  obtain ⟨δ, hbr, _, _, hu, ho, hr, _⟩ := aff_shape h
  exact ⟨⟨δ, hbr⟩, fun t ht => hbr ▸ List.mem_append_left δ ht, hu, ho, hr⟩

/-- Witness for C7 on the concrete assignment scenario. -/
theorem add_fake_facts_only_adds_witness :
    (∃ δ, out_assign.1.borrow_region = facts_assign.borrow_region ++ δ) ∧
    (∀ t ∈ facts_assign.borrow_region, t ∈ out_assign.1.borrow_region) ∧
    out_assign.1.universal_region = facts_assign.universal_region ∧
    out_assign.1.outlives = facts_assign.outlives ∧
    out_assign.1.region_live_at = facts_assign.region_live_at :=
  @add_fake_facts_only_adds facts_assign itn0 mir_assign [] [] [0] out_assign (by decide)

/-- C3: every synthesized loan id continues the monotone counter seeded
past the maximum input loan id (the synthesized ids are exactly the
consecutive block starting at `initial_loan_id`), every synthesized id
is strictly greater than every input id, and if the input ids are
pairwise distinct then so are all ids after completion. -/
theorem add_fake_facts_fresh_distinct_loan_ids
    {facts : AllInputFacts} {interner : PointIndex → Location} {mir : Mir}
    {vr : List (Local × Region)} {w : List (Loan × Local)} {order : List PointIndex}
    {out : AllInputFacts × List (Loan × Local) × List Loan × List Loan}
    (h : add_fake_facts facts interner mir vr w order = some out) :
    ∃ δ, out.1.borrow_region = facts.borrow_region ++ δ ∧
      δ.map (fun t => t.2.1) =
        (List.range δ.length).map (fun i => initial_loan_id facts.borrow_region + i) ∧
      (∀ t ∈ δ, ∀ s ∈ facts.borrow_region, (s.2.1 : Nat) < t.2.1) ∧
      ((facts.borrow_region.map (fun t => t.2.1)).Nodup →
        (out.1.borrow_region.map (fun t => t.2.1)).Nodup) := by
  obtain ⟨δ, hbr, hpt, hids, _, _, _, _⟩ := aff_shape h
  refine ⟨δ, hbr, by rw [hids, loan_ids_eq_range], ?_, ?_⟩
  · intro t ht s hs
    have h1 : t.2.1 ∈ δ.map (fun u => u.2.1) := List.mem_map_of_mem _ ht
    rw [hids] at h1
    have h2 := loan_ids_mem h1
    have h3 := input_loan_lt hs
    exact Nat.lt_of_lt_of_le h3 h2.1
  · intro hnd
    rw [hbr, List.map_append]
    refine List.Nodup.append hnd ?_ ?_
    · rw [hids]
      exact loan_ids_nodup _ _
    · intro a ha hb
      obtain ⟨s, hs, hsa⟩ := List.mem_map.mp ha
      have hsa' : (s.2.1 : Nat) = (a : Nat) := hsa
      rw [hids] at hb
      have h2 := loan_ids_mem hb
      have h3 := input_loan_lt hs
      rw [hsa'] at h3
      exact absurd h2.1 (Nat.not_le_of_lt h3)

/-- Witness for C3 on the scenario with input loan id 5: the
synthesized id block starts at 6. -/
theorem add_fake_facts_fresh_distinct_loan_ids_witness :
    ∃ δ, out_pre.1.borrow_region = facts_pre.borrow_region ++ δ ∧
      δ.map (fun t => t.2.1) =
        (List.range δ.length).map (fun i => initial_loan_id facts_pre.borrow_region + i) ∧
      (∀ t ∈ δ, ∀ s ∈ facts_pre.borrow_region, (s.2.1 : Nat) < t.2.1) ∧
      ((facts_pre.borrow_region.map (fun t => t.2.1)).Nodup →
        (out_pre.1.borrow_region.map (fun t => t.2.1)).Nodup) :=
  @add_fake_facts_fresh_distinct_loan_ids facts_pre itn0 mir_assign [] [] [0] out_pre
    (by decide)

/-- C4: a program point that already has a loan-creation fact in the
input receives zero synthesized facts, however many outlives pairs it
has: the loan-creation facts at that point are unchanged by
completion. -/
theorem add_fake_facts_existing_loan_point_unchanged
    {facts : AllInputFacts} {interner : PointIndex → Location} {mir : Mir}
    {vr : List (Local × Region)} {w : List (Loan × Local)} {order : List PointIndex}
    {out : AllInputFacts × List (Loan × Local) × List Loan × List Loan} {p : PointIndex}
    (hvo : ValidOrder facts order)
    (h : add_fake_facts facts interner mir vr w order = some out)
    (hex : ∃ t ∈ facts.borrow_region, t.2.2 = p) :
    out.1.borrow_region.filter (fun t => t.2.2 == p) =
      facts.borrow_region.filter (fun t => t.2.2 == p) := by
  by_cases hne : outlives_at_point facts p = []
  · obtain ⟨δ, hbr, hpt, _, _, _, _, _⟩ := aff_shape h
    have hpnot : p ∉ order := fun hp => hvo.2.1 p hp hne
    have hnil : δ.filter (fun t => t.2.2 == p) = [] :=
      filter_point_nil fun t ht hq => hpnot (hq ▸ hpt t ht)
    rw [hbr, List.filter_append, hnil, List.append_nil]
  · obtain ⟨st₁, st₂, hpp, hf1, hf2, _, _⟩ := aff_mid hvo hne h
    obtain ⟨t, ht, htp⟩ := hex
    have hmem : t ∈ st₁.borrow_region.filter (fun s => s.2.2 == p) := by
      rw [hf1]
      exact List.mem_filter.mpr ⟨ht, by simp [htp]⟩
    have hch : ¬ ∀ s ∈ st₁.borrow_region, s.2.2 ≠ p := by
      intro hall
      rw [filter_point_nil hall] at hmem
      cases hmem
    have h2 : process_point interner mir vr p (outlives_at_point facts p) st₁ =
        some st₁ := pp_skip hch
    rw [h2, Option.some_inj] at hpp
    rw [hf2, ← hpp, hf1]

/-- Witness for C4: the point-0 loan facts survive unchanged when
point 0 already has one. -/
theorem add_fake_facts_existing_loan_point_unchanged_witness :
    out_have.1.borrow_region.filter (fun t => t.2.2 == 0) =
      facts_have.borrow_region.filter (fun t => t.2.2 == 0) :=
  @add_fake_facts_existing_loan_point_unchanged facts_have itn0 mir_assign [] [] [0]
    out_have 0 (by decide) (by decide) (by decide)

/-- C1: at a call-terminator point with at least one qualifying
outlives pair and no pre-existing loan-creation fact, completion adds
exactly one destination loan when the destination is a local with an
associated region (recording it in `call_magic_wands`) — and none
otherwise — followed by exactly one argument loan per outlives pair,
each for the pair's first region.  The `filter` equation lists the
facts completion leaves at the point. -/
theorem add_fake_facts_call_destination_and_argument_loans
    {facts : AllInputFacts} {interner : PointIndex → Location} {mir : Mir}
    {vr : List (Local × Region)} {w : List (Loan × Local)} {order : List PointIndex}
    {out : AllInputFacts × List (Loan × Local) × List Loan × List Loan} {p : PointIndex}
    (hvo : ValidOrder facts order)
    (h : add_fake_facts facts interner mir vr w order = some out)
    (hne : outlives_at_point facts p ≠ [])
    (hnofact : ∀ t ∈ facts.borrow_region, t.2.2 ≠ p)
    (hcall : is_call mir (interner p) = true)
    (hdok : get_call_destination mir (interner p) ≠ some Place.projection) :
    ∃ L,
      out.1.borrow_region.filter (fun t => t.2.2 == p) =
        dest_loan_facts vr (get_call_destination mir (interner p)) L p ++
          arg_entries
            (L + (dest_loan_facts vr (get_call_destination mir (interner p)) L p).length)
            p (outlives_at_point facts p) ∧
      (∀ l r, get_call_destination mir (interner p) = some (Place.local l) →
        varRegionGet vr l = some r → (L, l) ∈ out.2.1) ∧
      (∀ n, (arg_entries n p (outlives_at_point facts p)).map (fun t => t.1) =
        (outlives_at_point facts p).map (fun q => q.1)) ∧
      (∀ n, (arg_entries n p (outlives_at_point facts p)).length =
        (outlives_at_point facts p).length) := by
  obtain ⟨st₁, st₂, hpp, hf1, hf2, _, hwp⟩ := aff_mid hvo hne h
  have hf1nil : st₁.borrow_region.filter (fun t => t.2.2 == p) = [] :=
    hf1.trans (filter_point_nil hnofact)
  have hch : ∀ t ∈ st₁.borrow_region, t.2.2 ≠ p := filter_nil_no_fact hf1nil
  cases hd : get_call_destination mir (interner p) with
  | none =>
      have heq : process_point interner mir vr p (outlives_at_point facts p) st₁ =
          some (push_arg_loans p (outlives_at_point facts p) st₁) :=
        pp_call_none hch hcall hd
      rw [heq, Option.some_inj] at hpp
      have hst : st₂ = push_arg_loans p (outlives_at_point facts p) st₁ := hpp.symm
      refine ⟨st₁.last_loan_id, ?_, ?_, fun n => arg_entries_regions n p _,
        fun n => arg_entries_length n p _⟩
      · have hfil : st₂.borrow_region.filter (fun t => t.2.2 == p) =
            arg_entries st₁.last_loan_id p (outlives_at_point facts p) := by
          rw [hst, push_arg_loans_eq]
          show (st₁.borrow_region ++
            arg_entries st₁.last_loan_id p (outlives_at_point facts p)).filter
              (fun t => t.2.2 == p) = _
          rw [List.filter_append, hf1nil, List.nil_append]
          exact filter_point_self fun t ht => arg_entries_point t ht
        rw [hf2, hfil]
        simp [dest_loan_facts]
      · intro l' r' heq' hvr
        exact Option.noConfusion heq'
  | some pl =>
      cases pl with
      | projection => exact absurd hd hdok
      | «local» l =>
          cases hv : varRegionGet vr l with
          | none =>
              have heq : process_point interner mir vr p (outlives_at_point facts p) st₁ =
                  some (push_arg_loans p (outlives_at_point facts p) st₁) :=
                pp_call_local_none hch hcall hd hv
              rw [heq, Option.some_inj] at hpp
              have hst : st₂ = push_arg_loans p (outlives_at_point facts p) st₁ := hpp.symm
              refine ⟨st₁.last_loan_id, ?_, ?_, fun n => arg_entries_regions n p _,
                fun n => arg_entries_length n p _⟩
              · have hfil : st₂.borrow_region.filter (fun t => t.2.2 == p) =
                    arg_entries st₁.last_loan_id p (outlives_at_point facts p) := by
                  rw [hst, push_arg_loans_eq]
                  show (st₁.borrow_region ++
                    arg_entries st₁.last_loan_id p (outlives_at_point facts p)).filter
                      (fun t => t.2.2 == p) = _
                  rw [List.filter_append, hf1nil, List.nil_append]
                  exact filter_point_self fun t ht => arg_entries_point t ht
                rw [hf2, hfil]
                simp [dest_loan_facts, hv]
              · intro l' r' heq' hvr
                rw [Option.some_inj] at heq'
                simp only [Place.local.injEq] at heq'
                subst heq'
                rw [hv] at hvr
                exact Option.noConfusion hvr
          | some r =>
              have heq : process_point interner mir vr p (outlives_at_point facts p) st₁ =
                  some (push_arg_loans p (outlives_at_point facts p)
                    { st₁ with
                      borrow_region :=
                        st₁.borrow_region ++ [(r, st₁.last_loan_id, p)]
                      last_loan_id := st₁.last_loan_id + 1
                      call_magic_wands :=
                        (st₁.last_loan_id, l) :: st₁.call_magic_wands }) :=
                pp_call_local_some hch hcall hd hv
              rw [heq, Option.some_inj] at hpp
              have hst := hpp.symm
              refine ⟨st₁.last_loan_id, ?_, ?_, fun n => arg_entries_regions n p _,
                fun n => arg_entries_length n p _⟩
              · have hfil : st₂.borrow_region.filter (fun t => t.2.2 == p) =
                    (r, st₁.last_loan_id, p) ::
                      arg_entries (st₁.last_loan_id + 1) p (outlives_at_point facts p) := by
                  rw [hst, push_arg_loans_eq]
                  show ((st₁.borrow_region ++ [(r, st₁.last_loan_id, p)]) ++
                    arg_entries (st₁.last_loan_id + 1) p (outlives_at_point facts p)).filter
                      (fun t => t.2.2 == p) = _
                  rw [List.append_assoc, List.singleton_append, List.filter_append,
                    hf1nil, List.nil_append]
                  refine filter_point_self ?_
                  intro t ht
                  rcases List.mem_cons.mp ht with rfl | ht'
                  · rfl
                  · exact arg_entries_point t ht'
                rw [hf2, hfil]
                simp [dest_loan_facts, hv]
              · intro l' r' heq' hvr
                rw [Option.some_inj] at heq'
                simp only [Place.local.injEq] at heq'
                subst heq'
                refine hwp _ ?_
                rw [hst, push_arg_loans_eq]
                show (st₁.last_loan_id, l) ∈
                  (st₁.last_loan_id, l) :: st₁.call_magic_wands
                exact List.mem_cons_self _ _

/-- Witness for C1 on the concrete call scenario: destination local 3
with region 7 yields loan 1 recorded in the magic-wand map, plus one
argument loan for the pair (1, 2). -/
theorem add_fake_facts_call_destination_and_argument_loans_witness :
    ∃ L,
      out_call.1.borrow_region.filter (fun t => t.2.2 == 0) =
        dest_loan_facts vr_call (get_call_destination mir_call (itn0 0)) L 0 ++
          arg_entries
            (L + (dest_loan_facts vr_call (get_call_destination mir_call (itn0 0)) L 0).length)
            0 (outlives_at_point facts_call 0) ∧
      (∀ l r, get_call_destination mir_call (itn0 0) = some (Place.local l) →
        varRegionGet vr_call l = some r → (L, l) ∈ out_call.2.1) ∧
      (∀ n, (arg_entries n 0 (outlives_at_point facts_call 0)).map (fun t => t.1) =
        (outlives_at_point facts_call 0).map (fun q => q.1)) ∧
      (∀ n, (arg_entries n 0 (outlives_at_point facts_call 0)).length =
        (outlives_at_point facts_call 0).length) :=
  @add_fake_facts_call_destination_and_argument_loans facts_call itn0 mir_call vr_call
    [] [0] out_call 0 (by decide) (by decide) (by decide) (by decide) (by decide)
    (by decide)

/-- C2: at an assignment point with qualifying outlives pairs and no
pre-existing loan-creation fact, completion adds exactly one
loan-creation fact, for the second region of the last qualifying pair
at that point in the order of the input `outlives` relation — a pair
determined by the input facts alone, hence the same for every valid
HashMap iteration order. -/
theorem add_fake_facts_assignment_selects_last_pair
    {facts : AllInputFacts} {interner : PointIndex → Location} {mir : Mir}
    {vr : List (Local × Region)} {w : List (Loan × Local)} {order : List PointIndex}
    {out : AllInputFacts × List (Loan × Local) × List Loan × List Loan} {p : PointIndex}
    {pr : Region × Region}
    (hvo : ValidOrder facts order)
    (h : add_fake_facts facts interner mir vr w order = some out)
    (hnofact : ∀ t ∈ facts.borrow_region, t.2.2 ≠ p)
    (hcall : is_call mir (interner p) = false)
    (hassign : is_assignment mir (interner p) = true)
    (hlast : (outlives_at_point facts p).getLast? = some pr) :
    ∃ L, out.1.borrow_region.filter (fun t => t.2.2 == p) = [(pr.2, L, p)] ∧
      pr ∈ outlives_at_point facts p := by
  have hne : outlives_at_point facts p ≠ [] := by
    intro hnil
    rw [hnil] at hlast
    exact Option.noConfusion hlast
  obtain ⟨st₁, st₂, hpp, hf1, hf2, _, _⟩ := aff_mid hvo hne h
  have hf1nil : st₁.borrow_region.filter (fun t => t.2.2 == p) = [] :=
    hf1.trans (filter_point_nil hnofact)
  have hch : ∀ t ∈ st₁.borrow_region, t.2.2 ≠ p := filter_nil_no_fact hf1nil
  have heq : process_point interner mir vr p (outlives_at_point facts p) st₁ =
      some { st₁ with
        borrow_region := st₁.borrow_region ++ [(pr.2, st₁.last_loan_id, p)]
        reference_moves := st₁.reference_moves ++ [st₁.last_loan_id]
        last_loan_id := st₁.last_loan_id + 1 } :=
    pp_assign hch hcall hassign hlast
  rw [heq, Option.some_inj] at hpp
  refine ⟨st₁.last_loan_id, ?_, ?_⟩
  · rw [hf2, ← hpp]
    show (st₁.borrow_region ++ [(pr.2, st₁.last_loan_id, p)]).filter
      (fun t => t.2.2 == p) = _
    rw [List.filter_append, hf1nil, List.nil_append]
    simp
  · obtain ⟨hne', hpr⟩ :=
      List.mem_getLast?_eq_getLast (Option.mem_def.mpr hlast)
    rw [hpr]
    exact List.getLast_mem hne'

/-- Witness for C2 on the concrete assignment scenario with two pairs
at point 0: the last pair (3, 4) is selected and one loan for region 4
is created. -/
theorem add_fake_facts_assignment_selects_last_pair_witness :
    ∃ L, out_assign.1.borrow_region.filter (fun t => t.2.2 == 0) = [(4, L, 0)] ∧
      ((3, 4) : Region × Region) ∈ outlives_at_point facts_assign 0 :=
  @add_fake_facts_assignment_selects_last_pair facts_assign itn0 mir_assign [] []
    [0] out_assign 0 (3, 4) (by decide) (by decide) (by decide) (by decide)
    (by decide) (by decide)

theorem run_points_none_iff {interner : PointIndex → Location} {mir : Mir}
    {vr : List (Local × Region)} {facts : AllInputFacts} :
    ∀ {ps : List PointIndex} {st : FakeState}, ps.Nodup →
    (∀ p ∈ ps, outlives_at_point facts p ≠ []) →
    (∀ p ∈ ps, ((∃ t ∈ st.borrow_region, t.2.2 = p) ↔
      (∃ t ∈ facts.borrow_region, t.2.2 = p))) →
    (run_points interner mir vr facts ps st = none ↔
      ∃ p ∈ ps, (∀ t ∈ facts.borrow_region, t.2.2 ≠ p) ∧
        is_call mir (interner p) = true ∧
        get_call_destination mir (interner p) = some Place.projection)
  | [], st, _, _, _ => by simp [run_points]
  | q :: rest, st, hnd, hall, hinv => by
      have hqinv := hinv q (List.mem_cons_self q rest)
      by_cases hpanic : (∀ t ∈ facts.borrow_region, t.2.2 ≠ q) ∧
          is_call mir (interner q) = true ∧
          get_call_destination mir (interner q) = some Place.projection
      · have hchq : ∀ t ∈ st.borrow_region, t.2.2 ≠ q := by
          intro t ht hq
          obtain ⟨s, hs, hsq⟩ := hqinv.mp ⟨t, ht, hq⟩
          exact hpanic.1 s hs hsq
        have hnone : process_point interner mir vr q (outlives_at_point facts q) st =
            none := pp_call_proj hchq hpanic.2.1 hpanic.2.2
        rw [run_points, hnone]
        exact iff_of_true rfl ⟨q, List.mem_cons_self q rest, hpanic⟩
      · have hne := hall q (List.mem_cons_self q rest)
        have hsome : ∃ st', process_point interner mir vr q
            (outlives_at_point facts q) st = some st' := by
          by_cases hch : ∀ t ∈ st.borrow_region, t.2.2 ≠ q
          · cases hc : is_call mir (interner q) with
            | true =>
                cases hdq : get_call_destination mir (interner q) with
                | none => exact ⟨_, pp_call_none hch hc hdq⟩
                | some pl =>
                    cases pl with
                    | «local» l =>
                        cases hv : varRegionGet vr l with
                        | none => exact ⟨_, pp_call_local_none hch hc hdq hv⟩
                        | some r => exact ⟨_, pp_call_local_some hch hc hdq hv⟩
                    | projection =>
                        exfalso
                        refine hpanic ⟨?_, hc, hdq⟩
                        intro t ht htq
                        obtain ⟨s, hs, hsq⟩ := hqinv.mpr ⟨t, ht, htq⟩
                        exact hch s hs hsq
            | false =>
                cases ha : is_assignment mir (interner q) with
                | true =>
                    cases hl : (outlives_at_point facts q).getLast? with
                    | some pr => exact ⟨_, pp_assign hch hc ha hl⟩
                    | none =>
                        exact absurd (List.getLast?_eq_none_iff.mp hl) hne
                | false => exact ⟨_, pp_neither hc ha⟩
          · exact ⟨_, pp_skip hch⟩
        obtain ⟨st', hst'⟩ := hsome
        rw [run_points, hst']
        obtain ⟨δ, w', rm, am, hrec, hptδ, _⟩ := process_point_shape hst'
        have hinv' : ∀ p ∈ rest, ((∃ t ∈ st'.borrow_region, t.2.2 = p) ↔
            ∃ t ∈ facts.borrow_region, t.2.2 = p) := by
          intro p hp
          have hpq : p ≠ q := fun hpq => (List.nodup_cons.mp hnd).1 (hpq ▸ hp)
          constructor
          · rintro ⟨t, ht, htp⟩
            have ht' : t ∈ st.borrow_region ++ δ := by rw [hrec] at ht; exact ht
            rcases List.mem_append.mp ht' with htl | htr
            · exact (hinv p (List.mem_cons_of_mem q hp)).mp ⟨t, htl, htp⟩
            · exact absurd (htp.symm.trans (hptδ t htr)) hpq
          · rintro ⟨t, ht, htp⟩
            obtain ⟨s, hs, hsp⟩ :=
              (hinv p (List.mem_cons_of_mem q hp)).mpr ⟨t, ht, htp⟩
            refine ⟨s, ?_, hsp⟩
            rw [hrec]
            exact List.mem_append_left δ hs
        have hih : run_points interner mir vr facts rest st' = none ↔
            ∃ p ∈ rest, (∀ t ∈ facts.borrow_region, t.2.2 ≠ p) ∧
              is_call mir (interner p) = true ∧
              get_call_destination mir (interner p) = some Place.projection :=
          run_points_none_iff (List.nodup_cons.mp hnd).2
            (fun p hp => hall p (List.mem_cons_of_mem q hp)) hinv'
        rw [show (match some st' with
            | some st'' => run_points interner mir vr facts rest st''
            | none => none) = run_points interner mir vr facts rest st' from rfl, hih]
        constructor
        · rintro ⟨p, hp, hpan⟩
          exact ⟨p, List.mem_cons_of_mem q hp, hpan⟩
        · rintro ⟨p, hp, hpan⟩
          rcases List.mem_cons.mp hp with rfl | hp'
          · exact absurd hpan hpanic
          · exact ⟨p, hp', hpan⟩

/-- C9: completion panics (the source's `unimplemented!`) exactly when
some qualifying call point — at least one outlives pair, no
pre-existing loan-creation fact, a call terminator — has a non-local
destination place; otherwise it runs to completion. -/
theorem add_fake_facts_unimplemented_destination
    {facts : AllInputFacts} {interner : PointIndex → Location} {mir : Mir}
    {vr : List (Local × Region)} {w : List (Loan × Local)} {order : List PointIndex}
    (hvo : ValidOrder facts order) :
    add_fake_facts facts interner mir vr w order = none ↔
      ∃ p, outlives_at_point facts p ≠ [] ∧
        (∀ t ∈ facts.borrow_region, t.2.2 ≠ p) ∧
        is_call mir (interner p) = true ∧
        get_call_destination mir (interner p) = some Place.projection := by
  have hiff : run_points interner mir vr facts order
      { borrow_region := facts.borrow_region
        last_loan_id := initial_loan_id facts.borrow_region
        call_magic_wands := w
        reference_moves := []
        argument_moves := [] } = none ↔
      ∃ p ∈ order, (∀ t ∈ facts.borrow_region, t.2.2 ≠ p) ∧
        is_call mir (interner p) = true ∧
        get_call_destination mir (interner p) = some Place.projection :=
    run_points_none_iff hvo.1 hvo.2.1 (fun p _ => Iff.rfl)
  simp only [add_fake_facts]
  cases hrun : run_points interner mir vr facts order
      { borrow_region := facts.borrow_region
        last_loan_id := initial_loan_id facts.borrow_region
        call_magic_wands := w
        reference_moves := []
        argument_moves := [] } with
  | some st =>
      refine iff_of_false (by simp) ?_
      rintro ⟨p, hne, hpan⟩
      have : run_points interner mir vr facts order _ = none :=
        hiff.mpr ⟨p, (validOrder_mem hvo p).mpr hne, hpan⟩
      rw [hrun] at this
      exact Option.noConfusion this
  | none =>
      obtain ⟨p, hp, hpan⟩ := hiff.mp hrun
      exact iff_of_true rfl ⟨p, hvo.2.1 p hp, hpan⟩

/-- Witness for C9: a call whose destination is a projection aborts
completion. -/
theorem add_fake_facts_unimplemented_destination_witness :
    add_fake_facts facts_call itn0 mir_call_proj [] [] [0] = none :=
  (@add_fake_facts_unimplemented_destination facts_call itn0 mir_call_proj [] [] [0]
    (by decide)).mpr ⟨0, by decide, by decide, by decide, by decide⟩

theorem arg_entries_ne_nil {n : Nat} {p : PointIndex} {pairs : List (Region × Region)}
    (h : pairs ≠ []) : arg_entries n p pairs ≠ [] := by
  intro hnil
  apply h
  have hlen := arg_entries_length n p pairs
  rw [hnil] at hlen
  exact List.length_eq_zero.mp hlen.symm

theorem aff_point_coverage
    {facts : AllInputFacts} {interner : PointIndex → Location} {mir : Mir}
    {vr : List (Local × Region)} {w : List (Loan × Local)} {order : List PointIndex}
    {out : AllInputFacts × List (Loan × Local) × List Loan × List Loan} {p : PointIndex}
    (hvo : ValidOrder facts order)
    (h : add_fake_facts facts interner mir vr w order = some out)
    (hne : outlives_at_point facts p ≠ []) :
    (∃ t ∈ out.1.borrow_region, t.2.2 = p) ∨
    (is_call mir (interner p) = false ∧ is_assignment mir (interner p) = false) := by
  by_cases hex : ∃ t ∈ facts.borrow_region, t.2.2 = p
  · left
    obtain ⟨δ, hbr, _, _, _, _, _, _⟩ := aff_shape h
    obtain ⟨t, ht, htp⟩ := hex
    exact ⟨t, hbr ▸ List.mem_append_left δ ht, htp⟩
  · have hnofact : ∀ t ∈ facts.borrow_region, t.2.2 ≠ p :=
      fun t ht htp => hex ⟨t, ht, htp⟩
    obtain ⟨st₁, st₂, hpp, hf1, hf2, _, _⟩ := aff_mid hvo hne h
    have hf1nil : st₁.borrow_region.filter (fun t => t.2.2 == p) = [] :=
      hf1.trans (filter_point_nil hnofact)
    have hch : ∀ t ∈ st₁.borrow_region, t.2.2 ≠ p := filter_nil_no_fact hf1nil
    have hout : ∀ t, t ∈ st₂.borrow_region → t.2.2 = p →
        ∃ t ∈ out.1.borrow_region, t.2.2 = p := by
      intro t ht htp
      have h1 : t ∈ st₂.borrow_region.filter (fun s => s.2.2 == p) :=
        List.mem_filter.mpr ⟨ht, by simp [htp]⟩
      rw [← hf2] at h1
      exact ⟨t, (List.mem_filter.mp h1).1, htp⟩
    cases hc : is_call mir (interner p) with
    | true =>
        left
        cases hd : get_call_destination mir (interner p) with
        | none =>
            have heq : process_point interner mir vr p (outlives_at_point facts p) st₁ =
                some (push_arg_loans p (outlives_at_point facts p) st₁) :=
              pp_call_none hch hc hd
            rw [heq, Option.some_inj] at hpp
            obtain ⟨t, htmem⟩ := List.exists_mem_of_ne_nil
              (arg_entries st₁.last_loan_id p (outlives_at_point facts p))
              (arg_entries_ne_nil hne)
            refine hout t ?_ (arg_entries_point t htmem)
            rw [← hpp, push_arg_loans_eq]
            show t ∈ st₁.borrow_region ++
              arg_entries st₁.last_loan_id p (outlives_at_point facts p)
            exact List.mem_append_right _ htmem
        | some pl =>
            cases pl with
            | projection =>
                rw [pp_call_proj hch hc hd] at hpp
                exact Option.noConfusion hpp
            | «local» l =>
                cases hv : varRegionGet vr l with
                | none =>
                    have heq : process_point interner mir vr p
                        (outlives_at_point facts p) st₁ =
                        some (push_arg_loans p (outlives_at_point facts p) st₁) :=
                      pp_call_local_none hch hc hd hv
                    rw [heq, Option.some_inj] at hpp
                    obtain ⟨t, htmem⟩ := List.exists_mem_of_ne_nil
                      (arg_entries st₁.last_loan_id p (outlives_at_point facts p))
                      (arg_entries_ne_nil hne)
                    refine hout t ?_ (arg_entries_point t htmem)
                    rw [← hpp, push_arg_loans_eq]
                    show t ∈ st₁.borrow_region ++
                      arg_entries st₁.last_loan_id p (outlives_at_point facts p)
                    exact List.mem_append_right _ htmem
                | some r =>
                    have heq : process_point interner mir vr p
                        (outlives_at_point facts p) st₁ =
                        some (push_arg_loans p (outlives_at_point facts p)
                          { st₁ with
                            borrow_region :=
                              st₁.borrow_region ++ [(r, st₁.last_loan_id, p)]
                            last_loan_id := st₁.last_loan_id + 1
                            call_magic_wands :=
                              (st₁.last_loan_id, l) :: st₁.call_magic_wands }) :=
                      pp_call_local_some hch hc hd hv
                    rw [heq, Option.some_inj] at hpp
                    refine hout (r, st₁.last_loan_id, p) ?_ rfl
                    rw [← hpp, push_arg_loans_eq]
                    show (r, st₁.last_loan_id, p) ∈
                      (st₁.borrow_region ++ [(r, st₁.last_loan_id, p)]) ++
                        arg_entries (st₁.last_loan_id + 1) p (outlives_at_point facts p)
                    exact List.mem_append_left _
                      (List.mem_append_right _ (List.mem_singleton.mpr rfl))
    | false =>
        cases ha : is_assignment mir (interner p) with
        | true =>
            left
            cases hl : (outlives_at_point facts p).getLast? with
            | none => exact absurd (List.getLast?_eq_none_iff.mp hl) hne
            | some pr =>
                have heq : process_point interner mir vr p
                    (outlives_at_point facts p) st₁ =
                    some { st₁ with
                      borrow_region :=
                        st₁.borrow_region ++ [(pr.2, st₁.last_loan_id, p)]
                      reference_moves := st₁.reference_moves ++ [st₁.last_loan_id]
                      last_loan_id := st₁.last_loan_id + 1 } :=
                  pp_assign hch hc ha hl
                rw [heq, Option.some_inj] at hpp
                refine hout (pr.2, st₁.last_loan_id, p) ?_ rfl
                rw [← hpp]
                show (pr.2, st₁.last_loan_id, p) ∈
                  st₁.borrow_region ++ [(pr.2, st₁.last_loan_id, p)]
                exact List.mem_append_right _ (List.mem_singleton.mpr rfl)
        | false => exact Or.inr ⟨rfl, rfl⟩

theorem run_points_noop {interner : PointIndex → Location} {mir : Mir}
    {vr : List (Local × Region)} {facts2 : AllInputFacts} :
    ∀ {ps : List PointIndex} {st : FakeState},
    (∀ p ∈ ps, (∃ t ∈ st.borrow_region, t.2.2 = p) ∨
      (is_call mir (interner p) = false ∧ is_assignment mir (interner p) = false)) →
    run_points interner mir vr facts2 ps st = some st
  | [], st, _ => rfl
  | q :: rest, st, hyp => by
      have hq := hyp q (List.mem_cons_self q rest)
      have hppq : process_point interner mir vr q (outlives_at_point facts2 q) st =
          some st := by
        rcases hq with ⟨t, ht, htq⟩ | ⟨hc, ha⟩
        · exact pp_skip fun hall => (hall t ht) htq
        · exact pp_neither hc ha
      rw [run_points, hppq]
      exact run_points_noop fun p hp => hyp p (List.mem_cons_of_mem q hp)

/-- C5: completion is idempotent — running it again on an
already-completed fact store (with any valid iteration order for the
second run) adds zero facts: the store is returned unchanged and both
move lists are empty. -/
theorem add_fake_facts_idempotent
    {facts : AllInputFacts} {interner : PointIndex → Location} {mir : Mir}
    {vr : List (Local × Region)} {w₁ : List (Loan × Local)} {order₁ : List PointIndex}
    {out : AllInputFacts × List (Loan × Local) × List Loan × List Loan}
    (hvo₁ : ValidOrder facts order₁)
    (h₁ : add_fake_facts facts interner mir vr w₁ order₁ = some out)
    {w₂ : List (Loan × Local)} {order₂ : List PointIndex}
    (hvo₂ : ValidOrder out.1 order₂) :
    add_fake_facts out.1 interner mir vr w₂ order₂ = some (out.1, w₂, [], []) := by
  obtain ⟨δ, hbr, hpt, hids, hu, ho, hr, hw⟩ := aff_shape h₁
  have houtl : ∀ q, outlives_at_point out.1 q = outlives_at_point facts q := by
    intro q
    unfold outlives_at_point
    rw [ho, hu]
  have hcov : ∀ q ∈ order₂, (∃ t ∈ out.1.borrow_region, t.2.2 = q) ∨
      (is_call mir (interner q) = false ∧ is_assignment mir (interner q) = false) := by
    intro q hq
    have hne2 : outlives_at_point out.1 q ≠ [] := hvo₂.2.1 q hq
    have hne : outlives_at_point facts q ≠ [] := by
      rw [← houtl q]
      exact hne2
    exact aff_point_coverage hvo₁ h₁ hne
  simp only [add_fake_facts]
  have hrun : run_points interner mir vr out.1 order₂
      { borrow_region := out.1.borrow_region
        last_loan_id := initial_loan_id out.1.borrow_region
        call_magic_wands := w₂
        reference_moves := []
        argument_moves := [] } =
      some { borrow_region := out.1.borrow_region
             last_loan_id := initial_loan_id out.1.borrow_region
             call_magic_wands := w₂
             reference_moves := []
             argument_moves := [] } :=
    run_points_noop fun q hq => hcov q hq
  rw [hrun]

/-- Witness for C5: re-running completion on the completed assignment
scenario changes nothing. -/
theorem add_fake_facts_idempotent_witness :
    add_fake_facts out_assign.1 itn0 mir_assign [] [] [0] =
      some (out_assign.1, [], [], []) :=
  @add_fake_facts_idempotent facts_assign itn0 mir_assign [] [] [0] out_assign
    (by decide) (by decide) [] [0] (by decide)

theorem find_variable_loop_some {region : Region} {l : Local} :
    ∀ {rest : List (Local × Region)},
    find_variable_loop region rest (some l) =
      if rest.filter (fun e => e.2 == region) = [] then some (some l) else none
  | [] => by simp [find_variable_loop]
  | e :: rest => by
      by_cases he : e.2 = region
      · rw [find_variable_loop, if_pos he]
        have hfe : (e :: rest).filter (fun e => e.2 == region) =
            e :: rest.filter (fun e => e.2 == region) := by
          simp [List.filter_cons, he]
        rw [hfe]
        simp
      · rw [find_variable_loop, if_neg he]
        have hfe : (e :: rest).filter (fun e => e.2 == region) =
            rest.filter (fun e => e.2 == region) := by
          simp [List.filter_cons, he]
        rw [hfe]
        exact find_variable_loop_some

theorem find_variable_eq (vr : List (Local × Region)) (region : Region) :
    find_variable vr region =
      match vr.filter (fun e => e.2 == region) with
      | [] => some none
      | [e] => some (some e.1)
      | _ => none := by
  induction vr with
  | nil => rfl
  | cons e rest ih =>
      by_cases he : e.2 = region
      · have hfe : (e :: rest).filter (fun e => e.2 == region) =
            e :: rest.filter (fun e => e.2 == region) := by
          simp [List.filter_cons, he]
        rw [find_variable, find_variable_loop, if_pos he, hfe]
        rw [show find_variable_loop region rest (some e.1) =
          if rest.filter (fun e => e.2 == region) = [] then some (some e.1) else none
          from find_variable_loop_some]
        by_cases hrf : rest.filter (fun e => e.2 == region) = []
        · rw [if_pos hrf, hrf]
        · rw [if_neg hrf]
          cases hc : rest.filter (fun e => e.2 == region) with
          | nil => exact absurd hc hrf
          | cons b bs => rfl
      · have hfe : (e :: rest).filter (fun e => e.2 == region) =
            rest.filter (fun e => e.2 == region) := by
          simp [List.filter_cons, he]
        rw [find_variable, find_variable_loop, if_neg he, hfe]
        exact ih

/-- C6: `find_variable` returns the unique variable whose type carries
the region when exactly one exists, returns nothing when no variable
maps to the region, and trips its fatal assertion (modelled by the
outer `none`) whenever two distinct variables map to the same region —
never a silently wrong answer. -/
theorem find_variable_partial_injective
    {vr : List (Local × Region)} {region : Region}
    (hkeys : (vr.map (fun e => e.1)).Nodup) :
    ((∀ e ∈ vr, e.2 ≠ region) → find_variable vr region = some none) ∧
    (∀ l, (l, region) ∈ vr → (∀ e ∈ vr, e.2 = region → e.1 = l) →
      find_variable vr region = some (some l)) ∧
    (∀ l₁ l₂, l₁ ≠ l₂ → (l₁, region) ∈ vr → (l₂, region) ∈ vr →
      find_variable vr region = none) := by
  refine ⟨?_, ?_, ?_⟩
  · intro hno
    rw [find_variable_eq]
    have hfl : vr.filter (fun e => e.2 == region) = [] :=
      List.filter_eq_nil_iff.mpr fun e he => by simp [hno e he]
    rw [hfl]
  · intro l hmem huniq
    rw [find_variable_eq]
    have hall : ∀ e ∈ vr.filter (fun e => e.2 == region), e = (l, region) := by
      intro e he
      obtain ⟨hev, her⟩ := List.mem_filter.mp he
      have her' : e.2 = region := by simpa using her
      have he1 : e.1 = l := huniq e hev her'
      rw [← he1, ← her']
    have hkeysf : ((vr.filter (fun e => e.2 == region)).map (fun e => e.1)).Nodup :=
      List.Nodup.sublist (List.Sublist.map _ (List.filter_sublist vr)) hkeys
    have hmemf : (l, region) ∈ vr.filter (fun e => e.2 == region) :=
      List.mem_filter.mpr ⟨hmem, by simp⟩
    cases hfl : vr.filter (fun e => e.2 == region) with
    | nil => rw [hfl] at hmemf; cases hmemf
    | cons a as =>
        cases as with
        | nil => rw [hfl] at hall; rw [hall a (List.mem_singleton.mpr rfl)]
        | cons b bs =>
            exfalso
            rw [hfl] at hall hkeysf
            have ha := hall a (List.mem_cons_self _ _)
            have hb := hall b (List.mem_cons_of_mem a (List.mem_cons_self _ _))
            rw [List.map_cons, List.map_cons, List.nodup_cons] at hkeysf
            exact hkeysf.1 (by rw [ha, hb]; exact List.mem_cons_self _ _)
  · intro l₁ l₂ hne h1 h2
    rw [find_variable_eq]
    have hm1 : (l₁, region) ∈ vr.filter (fun e => e.2 == region) :=
      List.mem_filter.mpr ⟨h1, by simp⟩
    have hm2 : (l₂, region) ∈ vr.filter (fun e => e.2 == region) :=
      List.mem_filter.mpr ⟨h2, by simp⟩
    cases hfl : vr.filter (fun e => e.2 == region) with
    | nil => rw [hfl] at hm1; cases hm1
    | cons a as =>
        cases as with
        | nil =>
            exfalso
            rw [hfl] at hm1 hm2
            have e1 := List.mem_singleton.mp hm1
            have e2 := List.mem_singleton.mp hm2
            apply hne
            have := e1.trans e2.symm
            exact congrArg Prod.fst this
        | cons b bs => rfl

/-- Witness for C6: a map sending the two distinct locals 0 and 1 to
the same region 5 makes `find_variable` abort. -/
theorem find_variable_partial_injective_witness :
    find_variable [(0, 5), (1, 5)] 5 = none :=
  (find_variable_partial_injective (by decide)).2.2 0 1 (by decide) (by decide)
    (by decide)

/-- C8: for every terminator the renderer emits exactly one CFG edge
per successor, in emission order: the unwind/cleanup successors of
drop, drop-and-replace, call and assert terminators highlighted, the
imaginary successors of the false-edge terminators dashed, and every
remaining successor plain; the two unimplemented terminator kinds
panic. -/
theorem visit_terminator_edge_styles (t : TerminatorKind) :
    visit_terminator t = expected_edges t := by
  cases t <;>
    simp [visit_terminator, expected_edges, normal_successors, unwind_successors,
      imaginary_successors, List.map_map, Function.comp]

/-- C10: an item function whose name ends with `__spec` is skipped
before any work happens (no borrow checking, no fact loading, no
report file); any other item function is processed in full exactly
when it passes the single-function-name filter. -/
theorem visit_fn_skips_spec_functions (name : FnName) (cfg : Option FnName) :
    (ends_with name specSuffix = true → visit_fn (FnKind.itemFn name) cfg = []) ∧
    (ends_with name specSuffix = false → (cfg = none ∨ cfg = some name) →
      visit_fn (FnKind.itemFn name) cfg = processSteps) ∧
    (ends_with name specSuffix = false → ∀ v, cfg = some v → name ≠ v →
      visit_fn (FnKind.itemFn name) cfg = []) := by
  refine ⟨?_, ?_, ?_⟩
  · intro hspec
    simp [visit_fn, hspec]
  · intro hspec hcfg
    rcases hcfg with rfl | rfl
    · simp [visit_fn, hspec]
    · simp [visit_fn, hspec]
  · intro hspec v hv hnev
    subst hv
    simp [visit_fn, hspec, hnev]

/-- Witness for C10: `foo__spec` is skipped while `bar` is processed
when no filter is set. -/
theorem visit_fn_skips_spec_functions_witness :
    visit_fn (FnKind.itemFn ['f', 'o', 'o', '_', '_', 's', 'p', 'e', 'c']) none = [] ∧
    visit_fn (FnKind.itemFn ['b', 'a', 'r']) none = processSteps :=
  ⟨(visit_fn_skips_spec_functions ['f', 'o', 'o', '_', '_', 's', 'p', 'e', 'c'] none).1
      (by decide),
   (visit_fn_skips_spec_functions ['b', 'a', 'r'] none).2.1 (by decide) (Or.inl rfl)⟩
